import Mathlib

/-!
Verification of the `xpubprincipals` program (src/main.go).

The program derives N child public keys from a root extended public key
(via the external `hdkeychain`/`btcec` collaborator), DER-encodes each
public key, and turns the DER bytes into a textual "principal":
SHA-224 digest, tag byte 0x02, CRC-32 (IEEE) prepended big-endian,
base-32 (standard alphabet, no padding), lowercased, grouped in chunks
of five characters joined by hyphens.

Bytes are modelled as `Nat` (the low 8 bits are the byte value; every
producer keeps values below 256), 32-bit words as `Nat` reduced modulo
2^32, strings as `List Char`.  The external key-derivation collaborator
(`hdkeychain`) is out of scope per the spec and is modelled as a pair of
abstract functions `child` and `ecPubKey`; everything else is translated
from the Go source and the Go standard-library functions it calls
(`crypto/sha256.Sum224`, `hash/crc32.ChecksumIEEE`,
`encoding/base32`, `encoding/asn1.Marshal`, `crypto/elliptic.Marshal`,
`strings.ToLower`, `strings.Join`).
-/

/-! ## Generic list chunking

`chunksOf n l` splits `l` into consecutive groups of `n` elements, the
last group holding the remainder.  It is implemented with a fuel
argument (the list length) so that it is structurally recursive and
reduces in the kernel. -/

def chunksOfAux (n : Nat) : Nat → List α → List (List α)
  | 0, _ => []
  | _, [] => []
  | fuel + 1, l => l.take n :: chunksOfAux n fuel (l.drop n)

def chunksOf (n : Nat) (l : List α) : List (List α) :=
  chunksOfAux n l.length l

/-- Concatenation of a list of lists. -/
def flattenL : List (List α) → List α
  | [] => []
  | x :: xs => x ++ flattenL xs

/-- Model of Go `strings.Join`: interleave the separator between the
elements. -/
def goJoin (sep : List Char) : List (List Char) → List Char
  | [] => []
  | [x] => x
  | x :: xs => x ++ sep ++ goJoin sep xs

/-! ## Byte and word helpers -/

/-- Big-endian 4-byte encoding of a 32-bit word
(Go `binary.BigEndian.PutUint32`). -/
def wordBE (w : Nat) : List Nat :=
  [(w >>> 24) % 256, (w >>> 16) % 256, (w >>> 8) % 256, w % 256]

/-- Big-endian 8-byte encoding of a 64-bit value. -/
def be64 (n : Nat) : List Nat :=
  [(n >>> 56) % 256, (n >>> 48) % 256, (n >>> 40) % 256, (n >>> 32) % 256,
   (n >>> 24) % 256, (n >>> 16) % 256, (n >>> 8) % 256, n % 256]

/-- Big-endian fixed-width byte encoding (Go `big.Int.FillBytes`). -/
def beBytes (len : Nat) (n : Nat) : List Nat :=
  (List.range len).map fun k => (n >>> (8 * (len - 1 - k))) % 256

/-- A big-endian 32-bit word from a list of bytes. -/
def beWord (bs : List Nat) : Nat :=
  bs.foldl (fun a b => a * 256 + b % 256) 0

/-! ## SHA-224 (Go `crypto/sha256.Sum224`, FIPS 180-4) -/

def w32 (n : Nat) : Nat := n % 4294967296

def rotr32 (x n : Nat) : Nat := w32 ((x >>> n) ||| (x <<< (32 - n)))

def bigSigma0 (x : Nat) : Nat := rotr32 x 2 ^^^ rotr32 x 13 ^^^ rotr32 x 22

def bigSigma1 (x : Nat) : Nat := rotr32 x 6 ^^^ rotr32 x 11 ^^^ rotr32 x 25

def smallSigma0 (x : Nat) : Nat := rotr32 x 7 ^^^ rotr32 x 18 ^^^ (x >>> 3)

def smallSigma1 (x : Nat) : Nat := rotr32 x 17 ^^^ rotr32 x 19 ^^^ (x >>> 10)

def chF (x y z : Nat) : Nat := (x &&& y) ^^^ ((x ^^^ 4294967295) &&& z)

def majF (x y z : Nat) : Nat := (x &&& y) ^^^ (x &&& z) ^^^ (y &&& z)

/-- The eight working variables of the SHA-256/224 compression. -/
structure Hash8 where
  a : Nat
  b : Nat
  c : Nat
  d : Nat
  e : Nat
  f : Nat
  g : Nat
  h : Nat

/-- SHA-224 initial hash value (FIPS 180-4 §5.3.2). -/
def initH224 : Hash8 :=
  ⟨3238371032, 914150663, 812702999, 4144912697,
   4290775857, 1750603025, 1694076839, 3204075428⟩

/-- SHA-256 round constants (FIPS 180-4 §4.2.2). -/
def roundK : List Nat :=
  [1116352408, 1899447441, 3049323471, 3921009573, 961987163,
   1508970993, 2453635748, 2870763221, 3624381080, 310598401,
   607225278, 1426881987, 1925078388, 2162078206, 2614888103,
   3248222580, 3835390401, 4022224774, 264347078, 604807628,
   770255983, 1249150122, 1555081692, 1996064986, 2554220882,
   2821834349, 2952996808, 3210313671, 3336571891, 3584528711,
   113926993, 338241895, 666307205, 773529912, 1294757372,
   1396182291, 1695183700, 1986661051, 2177026350, 2456956037,
   2730485921, 2820302411, 3259730800, 3345764771, 3516065817,
   3600352804, 4094571909, 275423344, 430227734, 506948616,
   659060556, 883997877, 958139571, 1322822218, 1537002063,
   1747873779, 1955562222, 2024104815, 2227730452, 2361852424,
   2428436474, 2756734187, 3204031479, 3329325298]

/-- One round of the SHA-256/224 compression function. -/
def shaRound (s : Hash8) (kw : Nat × Nat) : Hash8 :=
  let t1 := w32 (s.h + bigSigma1 s.e + chF s.e s.f s.g + kw.1 + kw.2)
  let t2 := w32 (bigSigma0 s.a + majF s.a s.b s.c)
  ⟨w32 (t1 + t2), s.a, s.b, s.c, w32 (s.d + t1), s.e, s.f, s.g⟩

/-- Message-schedule extension: append `k` further words, each computed
from the words 2, 7, 15 and 16 positions back. -/
def extendW : Nat → List Nat → List Nat
  | 0, w => w
  | k + 1, w =>
    let l := w.length
    extendW k (w ++ [w32 (smallSigma1 (w.getD (l - 2) 0) + w.getD (l - 7) 0 +
      smallSigma0 (w.getD (l - 15) 0) + w.getD (l - 16) 0)])

/-- The 64-word message schedule of one 64-byte block. -/
def schedule (block : List Nat) : List Nat :=
  extendW 48 ((chunksOf 4 block).map beWord)

/-- Process one 64-byte block. -/
def shaCompress (st : Hash8) (block : List Nat) : Hash8 :=
  let f := ((roundK.zip (schedule block)).foldl shaRound st)
  ⟨w32 (st.a + f.a), w32 (st.b + f.b), w32 (st.c + f.c), w32 (st.d + f.d),
   w32 (st.e + f.e), w32 (st.f + f.f), w32 (st.g + f.g), w32 (st.h + f.h)⟩

/-- SHA padding: 0x80, zeros to 56 mod 64, then the 64-bit big-endian
bit length. -/
def shaPad (m : List Nat) : List Nat :=
  m ++ 128 :: List.replicate ((119 - m.length % 64) % 64) 0 ++ be64 (8 * m.length)

/-- SHA-224 digest: the first seven words of the final state, big-endian
(28 bytes).  Models Go `sha256.Sum224`. -/
def sha224 (m : List Nat) : List Nat :=
  let st := (chunksOf 64 (shaPad m)).foldl shaCompress initH224
  wordBE st.a ++ wordBE st.b ++ wordBE st.c ++ wordBE st.d ++
    wordBE st.e ++ wordBE st.f ++ wordBE st.g

/-! ## CRC-32, IEEE polynomial (Go `hash/crc32.ChecksumIEEE`) -/

def crcBit (c : Nat) : Nat :=
  if c % 2 = 1 then (c >>> 1) ^^^ 0xedb88320 else c >>> 1

def crcBitsN : Nat → Nat → Nat
  | 0, c => c
  | k + 1, c => crcBitsN k (crcBit c)

def crcByte (c b : Nat) : Nat := crcBitsN 8 (c ^^^ (b % 256))

def crc32IEEE (bs : List Nat) : Nat :=
  (bs.foldl crcByte 0xffffffff) ^^^ 0xffffffff

/-! ## Base-32, standard alphabet, no padding
(Go `base32.StdEncoding.WithPadding(base32.NoPadding)`) -/

def b32Alphabet : List Char :=
  ['A', 'B', 'C', 'D', 'E', 'F', 'G', 'H', 'I', 'J', 'K', 'L', 'M', 'N',
   'O', 'P', 'Q', 'R', 'S', 'T', 'U', 'V', 'W', 'X', 'Y', 'Z', '2', '3',
   '4', '5', '6', '7']

/-- The eight bits of a byte, most significant first. -/
def byteBits (b : Nat) : List Bool :=
  [b.testBit 7, b.testBit 6, b.testBit 5, b.testBit 4,
   b.testBit 3, b.testBit 2, b.testBit 1, b.testBit 0]

def bytesBits : List Nat → List Bool
  | [] => []
  | b :: r => byteBits b ++ bytesBits r

/-- The value of a group of at most five bits, zero-extended on the
right to five bits per the base-32 rules. -/
def groupVal (g : List Bool) : Nat :=
  (g.foldl (fun a b => 2 * a + (if b then 1 else 0)) 0) * 2 ^ (5 - g.length)

/-- Standard base-32 encoding without padding: the bit stream, most
significant bit first, in groups of five, each mapped through the
standard alphabet. -/
def base32NoPad (bs : List Nat) : List Char :=
  (chunksOf 5 (bytesBits bs)).map fun g => b32Alphabet.getD (groupVal g) 'A'

/-- ASCII lowercasing (Go `strings.ToLower` on ASCII input). -/
def toLowerAscii (c : Char) : Char :=
  if 'A' ≤ c ∧ c ≤ 'Z' then Char.ofNat (c.toNat + 32) else c

/-! ## `SplitN` and `SelfAuthenticating` (src/main.go) -/

/-- The loop body of Go `SplitN`: `cur` is the partial chunk collected
so far (the Go code keeps it in a fixed buffer `chunk` with fill index
`i`); a chunk is flushed when it reaches length `n`, and a non-empty
remainder is flushed at the end. -/
def splitLoop (n : Nat) : List Char → List Char → List (List Char)
  | cur, [] => if cur.length > 0 then [cur] else []
  | cur, c :: rest =>
    let cur2 := cur ++ [c]
    if cur2.length = n then cur2 :: splitLoop n [] rest
    else splitLoop n cur2 rest

/-- Go `SplitN(str, n)`: `[str]` when `n >= len(str)`, otherwise the
rune loop.  (The program only calls it with `n = 5`.) -/
def SplitN (str : List Char) (n : Nat) : List (List Char) :=
  if n ≥ str.length then [str] else splitLoop n [] str

/-- Go `SelfAuthenticating(der)`: SHA-224 digest, tag byte 2 appended,
CRC-32 of digest‖tag prepended big-endian, base-32 without padding,
lowercased, split in groups of 5 joined by hyphens. -/
def SelfAuthenticating (der : List Nat) : List Char :=
  let digest := sha224 der
  let tag : List Nat := [2]
  let data := digest ++ tag
  let crc := wordBE (crc32IEEE data)
  let str := base32NoPad (crc ++ data)
  goJoin ['-'] (SplitN (str.map toLowerAscii) 5)

/-! ## DER encoding (Go `encoding/asn1.Marshal` on the `ECPubKey`
structure, plus `crypto/elliptic.Marshal`)

`asn1.Marshal` cannot fail on this structure: both object identifiers
are hard-coded and valid, and a bit string marshals unconditionally, so
the error branch of the Go call is dead and the marshaller is modelled
as a total function wrapped in `Except.ok`. -/

/-- Minimal big-endian base-256 digits (fuel-bounded; fuel 9 covers all
lengths that can arise here). -/
def natBEAux : Nat → Nat → List Nat
  | 0, _ => []
  | f + 1, n => if n = 0 then [] else natBEAux f (n / 256) ++ [n % 256]

/-- DER definite-length encoding: short form below 128, long form with
a length-of-length byte otherwise. -/
def derLen (n : Nat) : List Nat :=
  if n < 128 then [n]
  else
    let bs := natBEAux 9 n
    (128 + bs.length) :: bs

/-- Big-endian base-128 digits (fuel-bounded). -/
def base128Aux : Nat → Nat → List Nat
  | 0, _ => []
  | f + 1, n => if n < 128 then [n] else base128Aux f (n / 128) ++ [n % 128]

/-- Set the high bit on every byte but the last. -/
def markHigh : List Nat → List Nat
  | [] => []
  | [x] => [x]
  | x :: xs => (x + 128) :: markHigh xs

/-- Base-128 encoding of one OID arc (Go `appendBase128Int`). -/
def base128Int (n : Nat) : List Nat := markHigh (base128Aux 10 n)

/-- Content bytes of an OBJECT IDENTIFIER: the first two arcs combined
as 40*a+b, the remaining arcs base-128 encoded. -/
def derOIDContent : List Nat → List Nat
  | a :: b :: rest => base128Int (40 * a + b) ++ flattenL (rest.map base128Int)
  | _ => []

/-- A DER element: tag, definite length, content. -/
def derElem (tag : Nat) (content : List Nat) : List Nat :=
  tag :: derLen content.length ++ content

/-- BIT STRING content as marshalled by Go `encoding/asn1` for an
`asn1.BitString`: the unused-bits count `(8 - BitLength mod 8) mod 8`
followed by the bytes.  The program builds the bit string with
`BitLength` left at zero, so the unused-bits byte is zero. -/
def derBitString (bitLength : Nat) (bs : List Nat) : List Nat :=
  derElem 3 (((8 - bitLength % 8) % 8) :: bs)

/-- Go `SECP256K1()`: the named-curve object identifier 1.3.132.0.10. -/
def SECP256K1 : List Nat := [1, 3, 132, 0, 10]

/-- The EC public-key algorithm object identifier 1.2.840.10045.2.1. -/
def ecPubKeyOID : List Nat := [1, 2, 840, 10045, 2, 1]

/-- Go `elliptic.Marshal` on secp256k1 (field byte-length 32): marker
byte 4, then X and Y big-endian, each padded to 32 bytes. -/
def ellipticMarshal (X Y : Nat) : List Nat :=
  4 :: (beBytes 32 X ++ beBytes 32 Y)

/-- Model of Go `asn1.Marshal` on the `ECPubKey` structure of src/main.go:
SEQUENCE { SEQUENCE { OID, OID }, BIT STRING }. -/
def asn1MarshalECPubKey (X Y : Nat) : List Nat :=
  derElem 48
    (derElem 48 (derElem 6 (derOIDContent ecPubKeyOID) ++
        derElem 6 (derOIDContent SECP256K1)) ++
      derBitString 0 (ellipticMarshal X Y))

/-- Go `EncodeECPubKey`: marshal the public key point (modelled as the
pair of coordinates) into DER. -/
def EncodeECPubKey {E : Type} (pubKey : Nat × Nat) : Except E (List Nat) :=
  Except.ok (asn1MarshalECPubKey pubKey.1 pubKey.2)

/-- Go `ECPubKeyToPrincipal`. -/
def ECPubKeyToPrincipal {E : Type} (pubKey : Nat × Nat) : Except E (List Char) :=
  match EncodeECPubKey pubKey with
  | Except.error e => Except.error e
  | Except.ok der => Except.ok (SelfAuthenticating der)

/-! ## The derivation driver (Go `generate`)

The external key-derivation collaborator (`hdkeychain`) is abstracted,
per the spec, as two functions: `child` (derive a non-hardened child by
index) and `ecPubKey` (extract the public key point).  The Go loop
index is an `int` converted with `uint32(i)`, modelled by reduction
modulo 2^32; the requested count is a Go `int`, modelled as `Int`. -/

def u32 (i : Nat) : Nat := i % 4294967296

/-- The loop of Go `generate`: `cnt` iterations remain, `i` is the Go
loop index, `acc` the result slice built so far. -/
def genLoop {K E : Type} (child : K → Nat → Except E K)
    (ecPubKey : K → Except E (Nat × Nat)) (k0 : K) :
    Nat → Nat → List (List Char) → Except E (List (List Char))
  | 0, _, acc => Except.ok acc
  | cnt + 1, i, acc =>
    match child k0 (u32 i) with
    | Except.error e => Except.error e
    | Except.ok childKey =>
      match ecPubKey childKey with
      | Except.error e => Except.error e
      | Except.ok pubKey =>
        match ECPubKeyToPrincipal pubKey with
        | Except.error e => Except.error e
        | Except.ok principal =>
          genLoop child ecPubKey k0 cnt (i + 1) (acc ++ [principal])

/-- Go `generate`: derive the fixed intermediate child at index 0, then
loop `for i := 0; i < n; i++` deriving leaf children and collecting
principals. -/
def generate {K E : Type} (child : K → Nat → Except E K)
    (ecPubKey : K → Except E (Nat × Nat)) (root : K) (n : Int) :
    Except E (List (List Char)) :=
  match child root 0 with
  | Except.error e => Except.error e
  | Except.ok k0 => genLoop child ecPubKey k0 n.toNat 0 []

/-- One leaf step of the run: derive the leaf child at index `i` from
the intermediate key and extract its public key point. -/
def leafStep {K E : Type} (child : K → Nat → Except E K)
    (ecPubKey : K → Except E (Nat × Nat)) (k0 : K) (i : Nat) :
    Except E (Nat × Nat) :=
  match child k0 (u32 i) with
  | Except.error e => Except.error e
  | Except.ok childKey => ecPubKey childKey

/-- The full pipeline for one leaf index: derivation, extraction,
encoding. -/
def leafPrincipal {K E : Type} (child : K → Nat → Except E K)
    (ecPubKey : K → Except E (Nat × Nat)) (k0 : K) (i : Nat) :
    Except E (List Char) :=
  match leafStep child ecPubKey k0 i with
  | Except.error e => Except.error e
  | Except.ok pubKey => ECPubKeyToPrincipal pubKey

/-! ## Spec-side definitions (worded after the specification, to be
compared with the definitions taken from the source) -/

/-- Follows the claim C1 wording: SHA-224 digest of `D`; tag byte 2
appended giving `T`; the IEEE CRC-32 of `T` as 4 big-endian bytes
prepended; base-32 without padding; lowercased; consecutive 5-character
groups joined with hyphens. -/
def specSelfAuthenticating (D : List Nat) : List Char :=
  let T := sha224 D ++ [2]
  let C := wordBE (crc32IEEE T)
  goJoin ['-'] (chunksOf 5 ((base32NoPad (C ++ T)).map toLowerAscii))

/-- Map a fallible function over a list, stopping at the first
failure. -/
def exceptMapList {E A B : Type} (f : A → Except E B) : List A → Except E (List B)
  | [] => Except.ok []
  | a :: as =>
    match f a with
    | Except.error e => Except.error e
    | Except.ok b =>
      match exceptMapList f as with
      | Except.error e => Except.error e
      | Except.ok bs => Except.ok (b :: bs)

/-- Follows the claim C4 wording: derive the fixed intermediate child
at index 0, then for each `i` in `[0, N)` in index order derive the
leaf child, extract its point and encode it, collecting the results. -/
def generateSpec {K E : Type} (child : K → Nat → Except E K)
    (ecPubKey : K → Except E (Nat × Nat)) (root : K) (n : Int) :
    Except E (List (List Char)) :=
  match child root 0 with
  | Except.error e => Except.error e
  | Except.ok k0 =>
    exceptMapList (leafPrincipal child ecPubKey k0) (List.range n.toNat)

/-- Follows the claim C3 wording: the DER encoding of a SEQUENCE of an
inner SEQUENCE of the two object identifiers 1.2.840.10045.2.1 and
1.3.132.0.10, followed by a BIT STRING with zero unused bits whose
content is 4 followed by X then Y, each big-endian padded to 32
bytes. -/
def derECPubKeySpec (X Y : Nat) : List Nat :=
  [48, 86,
     48, 16,
       6, 7, 42, 134, 72, 206, 61, 2, 1,
       6, 5, 43, 129, 4, 0, 10,
     3, 66, 0, 4] ++ beBytes 32 X ++ beBytes 32 Y

/-- The secp256k1 field prime 2^256 - 2^32 - 977. -/
def secpP : Nat :=
  115792089237316195423570985008687907853269984665640564039457584007908834671663

/-- X coordinate of the secp256k1 base point. -/
def secpGx : Nat :=
  55066263022277343669578718895168534326250603453777594175500187360389116729240

/-- Y coordinate of the secp256k1 base point. -/
def secpGy : Nat :=
  32670510020758816978083085130507043184471273380659243275938904335757337482424

/-! ## Concrete toy collaborators, used to exercise the driver theorems
on closed inputs -/

def toyChild (k i : Nat) : Except Unit Nat := Except.ok (2 * k + i + 1)

def toyEC (k : Nat) : Except Unit (Nat × Nat) := Except.ok (k, k + 1)

def toyChildFail (_k _i : Nat) : Except Unit Nat := Except.error ()

/-! ## Lemmas on chunking, flattening and joining -/

theorem chunksOfAux_fuel {n : Nat} (hn : 0 < n) :
    ∀ (f g : Nat) (l : List α), l.length ≤ f → l.length ≤ g →
      chunksOfAux n f l = chunksOfAux n g l := by
  intro f
  induction f with
  | zero =>
    intro g l hf _
    have : l = [] := List.eq_nil_of_length_eq_zero (Nat.le_zero.mp hf)
    subst this
    cases g <;> rfl
  | succ f ih =>
    intro g l hf hg
    cases l with
    | nil => cases g <;> rfl
    | cons x xs =>
      cases g with
      | zero => simp at hg
      | succ g =>
        simp only [chunksOfAux]
        congr 1
        apply ih
        · simp only [List.length_drop, List.length_cons]
          simp only [List.length_cons] at hf
          omega
        · simp only [List.length_drop, List.length_cons]
          simp only [List.length_cons] at hg
          omega

theorem chunksOf_nil (n : Nat) : chunksOf n ([] : List α) = [] := rfl

theorem chunksOf_cons {n : Nat} (hn : 0 < n) (l : List α) (hl : l ≠ []) :
    chunksOf n l = l.take n :: chunksOf n (l.drop n) := by
  cases l with
  | nil => exact absurd rfl hl
  | cons x xs =>
    show chunksOfAux n (x :: xs).length (x :: xs) = _
    simp only [List.length_cons, chunksOfAux]
    congr 1
    apply chunksOfAux_fuel hn
    · simp only [List.length_drop, List.length_cons]
      omega
    · exact Nat.le_refl _

theorem flattenL_chunksOf {n : Nat} (hn : 0 < n) (l : List α) :
    flattenL (chunksOf n l) = l := by
  generalize hf : l.length = f
  induction f using Nat.strong_induction_on generalizing l with
  | _ f ih =>
    cases l with
    | nil => rfl
    | cons x xs =>
      subst hf
      rw [chunksOf_cons hn _ (by simp)]
      show (x :: xs).take n ++ flattenL (chunksOf n ((x :: xs).drop n)) = x :: xs
      rw [ih ((x :: xs).drop n).length (by simp only [List.length_drop, List.length_cons]; omega)
        _ rfl, List.take_append_drop]

theorem chunksOf_length {n : Nat} (hn : 0 < n) (l : List α) :
    (chunksOf n l).length = (l.length + n - 1) / n := by
  generalize hf : l.length = f
  induction f using Nat.strong_induction_on generalizing l with
  | _ f ih =>
    cases l with
    | nil =>
      simp only [List.length_nil] at hf
      subst hf
      simp only [chunksOf_nil, List.length_nil, Nat.zero_add]
      rw [Nat.div_eq_of_lt (by omega)]
    | cons x xs =>
      subst hf
      rw [chunksOf_cons hn _ (by simp), List.length_cons,
        ih ((x :: xs).drop n).length (by simp only [List.length_drop, List.length_cons]; omega)
          _ rfl]
      simp only [List.length_drop, List.length_cons]
      rcases Nat.lt_or_ge xs.length n with hcase | hcase
      · have e1 : xs.length + 1 - n + n - 1 = n - 1 := by omega
        have e2 : (xs.length + 1 + n - 1) / n = 1 :=
          Nat.div_eq_of_lt_le (by omega) (by omega)
        rw [e1, Nat.div_eq_of_lt (by omega), e2]
      · obtain ⟨m, hm⟩ : ∃ m, xs.length = m + n := ⟨xs.length - n, by omega⟩
        rw [hm]
        have e1 : m + n + 1 - n + n - 1 = m + n := by omega
        have e2 : m + n + 1 + n - 1 = m + n + n := by omega
        rw [e1, e2, Nat.add_div_right (m + n) hn, Nat.add_div_right m hn]

theorem mem_of_mem_chunksOf {n : Nat} (hn : 0 < n) {l g : List α} {x : α}
    (hg : g ∈ chunksOf n l) (hx : x ∈ g) : x ∈ l := by
  generalize hf : l.length = f
  induction f using Nat.strong_induction_on generalizing l with
  | _ f ih =>
    cases l with
    | nil => simp [chunksOf_nil] at hg
    | cons y ys =>
      subst hf
      rw [chunksOf_cons hn _ (by simp)] at hg
      rcases List.mem_cons.mp hg with h | h
      · subst h
        exact List.take_subset n (y :: ys) hx
      · exact List.drop_subset n (y :: ys)
          (ih ((y :: ys).drop n).length
            (by simp only [List.length_drop, List.length_cons]; omega) h rfl)

theorem splitLoop_eq_chunksOf {n : Nat} (hn : 0 < n) :
    ∀ (l cur : List Char), cur.length < n →
      splitLoop n cur l = chunksOf n (cur ++ l) := by
  intro l
  induction l with
  | nil =>
    intro cur hcur
    simp only [splitLoop, List.append_nil]
    cases hc : cur with
    | nil => simp [chunksOf_nil]
    | cons y ys =>
      subst hc
      rw [if_pos (by simp), chunksOf_cons hn _ (by simp),
        List.take_of_length_le (Nat.le_of_lt hcur),
        List.drop_eq_nil_of_le (Nat.le_of_lt hcur), chunksOf_nil]
  | cons c rest ih =>
    intro cur hcur
    simp only [splitLoop]
    have hlen : (cur ++ [c]).length = cur.length + 1 := by simp
    by_cases hfull : (cur ++ [c]).length = n
    · rw [if_pos hfull, ih [] hn, List.nil_append]
      have hassoc : cur ++ c :: rest = (cur ++ [c]) ++ rest := by simp
      rw [hassoc, chunksOf_cons hn ((cur ++ [c]) ++ rest) (by simp),
        List.take_left' hfull, List.drop_left' hfull]
    · rw [if_neg hfull, ih (cur ++ [c]) (by omega)]
      congr 1
      simp

theorem SplitN_eq_chunksOf {n : Nat} (hn : 0 < n) (l : List Char) (hl : l ≠ []) :
    SplitN l n = chunksOf n l := by
  by_cases hge : n ≥ l.length
  · rw [SplitN, if_pos hge, chunksOf_cons hn _ hl, List.take_of_length_le hge,
      List.drop_eq_nil_of_le hge, chunksOf_nil]
  · rw [SplitN, if_neg hge, splitLoop_eq_chunksOf hn _ [] hn, List.nil_append]

theorem goJoin_length (c : Char) :
    ∀ l : List (List Char), l ≠ [] →
      (goJoin [c] l).length = (flattenL l).length + (l.length - 1) := by
  intro l
  induction l with
  | nil => intro h; exact absurd rfl h
  | cons x xs ih =>
    intro _
    cases xs with
    | nil => simp [goJoin, flattenL]
    | cons y ys =>
      have := ih (by simp)
      simp only [goJoin, flattenL, List.length_append, List.length_cons,
        List.length_nil] at this ⊢
      omega

theorem goJoin_count (c : Char) :
    ∀ l : List (List Char), l ≠ [] → (∀ g ∈ l, ∀ x ∈ g, x ≠ c) →
      (goJoin [c] l).count c = l.length - 1 := by
  intro l
  induction l with
  | nil => intro h; exact absurd rfl h
  | cons x xs ih =>
    intro _ hno
    have hx0 : x.count c = 0 :=
      List.count_eq_zero.mpr fun hmem => hno x (by simp) c hmem rfl
    cases xs with
    | nil => simpa [goJoin] using hx0
    | cons y ys =>
      have hrec := ih (by simp) (fun g hg => hno g (List.mem_cons_of_mem _ hg))
      simp only [goJoin, List.count_append, List.length_cons] at hrec ⊢
      rw [hrec, hx0]
      simp only [List.count_singleton, List.count_cons, List.count_nil,
        beq_self_eq_true, if_true]
      omega

theorem mem_goJoin {x : Char} (sep : List Char) :
    ∀ l : List (List Char), x ∈ goJoin sep l → x ∈ sep ∨ ∃ g ∈ l, x ∈ g := by
  intro l
  induction l with
  | nil => intro h; simp [goJoin] at h
  | cons g gs ih =>
    intro h
    cases gs with
    | nil =>
      right
      exact ⟨g, by simp, h⟩
    | cons g2 gs2 =>
      simp only [goJoin, List.append_assoc, List.mem_append] at h
      rcases h with h | h | h
      · exact Or.inr ⟨g, by simp, h⟩
      · exact Or.inl h
      · rcases ih h with h | ⟨g3, hg3, hx3⟩
        · exact Or.inl h
        · exact Or.inr ⟨g3, List.mem_cons_of_mem _ hg3, hx3⟩

theorem goJoin_congr (sep : List Char) (l1 l2 : List (List Char)) (h : l1 = l2) :
    goJoin sep l1 = goJoin sep l2 := by rw [h]

theorem filter_goJoin_hyphen :
    ∀ l : List (List Char), (∀ g ∈ l, ∀ x ∈ g, x ≠ '-') →
      (goJoin ['-'] l).filter (fun c => c != '-') = flattenL l := by
  intro l
  induction l with
  | nil => intro _; rfl
  | cons g gs ih =>
    intro hno
    have hg : g.filter (fun c => c != '-') = g :=
      List.filter_eq_self.mpr fun a ha => by
        simpa using hno g (by simp) a ha
    cases gs with
    | nil => simpa [goJoin, flattenL] using hg
    | cons g2 gs2 =>
      have hrec := ih (fun g hg => hno g (List.mem_cons_of_mem _ hg))
      simp only [goJoin, flattenL, List.filter_append] at hrec ⊢
      simp [hrec, hg]

/-! ## Length and alphabet facts about the fingerprint pipeline -/

theorem bytesBits_length (bs : List Nat) : (bytesBits bs).length = 8 * bs.length := by
  induction bs with
  | nil => rfl
  | cons b r ih =>
    simp only [bytesBits, byteBits, List.length_append, List.length_cons,
      List.length_nil, ih]
    omega

theorem base32NoPad_length (bs : List Nat) :
    (base32NoPad bs).length = (8 * bs.length + 4) / 5 := by
  rw [base32NoPad, List.length_map, chunksOf_length (by norm_num), bytesBits_length]
  norm_num

theorem sha224_length (m : List Nat) : (sha224 m).length = 28 := by
  simp [sha224, wordBE]

/-- The 53 lowercased base-32 characters of a principal, before
chunking. -/
def principalChars (der : List Nat) : List Char :=
  (base32NoPad (wordBE (crc32IEEE (sha224 der ++ [2])) ++ (sha224 der ++ [2]))).map
    toLowerAscii

theorem SelfAuthenticating_unfold (der : List Nat) :
    SelfAuthenticating der = goJoin ['-'] (SplitN (principalChars der) 5) := rfl

theorem specSelfAuthenticating_unfold (der : List Nat) :
    specSelfAuthenticating der = goJoin ['-'] (chunksOf 5 (principalChars der)) := rfl

theorem principalChars_length (der : List Nat) : (principalChars der).length = 53 := by
  rw [principalChars, List.length_map, base32NoPad_length, List.length_append,
    List.length_append, sha224_length]
  norm_num [wordBE]

theorem principalChars_ne_nil (der : List Nat) : principalChars der ≠ [] := by
  intro h
  have := principalChars_length der
  rw [h] at this
  simp at this

theorem b32Alphabet_getD_mem (v : Nat) : b32Alphabet.getD v 'A' ∈ b32Alphabet := by
  by_cases h : v < b32Alphabet.length
  · rw [List.getD_eq_getElem _ _ h]
    exact List.getElem_mem h
  · rw [List.getD_eq_default _ _ (Nat.le_of_not_lt h)]
    decide

theorem mem_b32Alphabet_of_mem_base32 {bs : List Nat} {x : Char}
    (h : x ∈ base32NoPad bs) : x ∈ b32Alphabet := by
  rw [base32NoPad, List.mem_map] at h
  obtain ⟨g, _, hx⟩ := h
  exact hx ▸ b32Alphabet_getD_mem _

theorem toLowerAscii_b32_range :
    ∀ c ∈ b32Alphabet, ('a' ≤ toLowerAscii c ∧ toLowerAscii c ≤ 'z') ∨
      ('2' ≤ toLowerAscii c ∧ toLowerAscii c ≤ '7') := by decide

theorem toLowerAscii_b32_ne_hyphen : ∀ c ∈ b32Alphabet, toLowerAscii c ≠ '-' := by decide

theorem principalChars_range {der : List Nat} {x : Char} (h : x ∈ principalChars der) :
    ('a' ≤ x ∧ x ≤ 'z') ∨ ('2' ≤ x ∧ x ≤ '7') := by
  rw [principalChars, List.mem_map] at h
  obtain ⟨y, hy, hx⟩ := h
  exact hx ▸ toLowerAscii_b32_range y (mem_b32Alphabet_of_mem_base32 hy)

theorem principalChars_ne_hyphen {der : List Nat} {x : Char}
    (h : x ∈ principalChars der) : x ≠ '-' := by
  rw [principalChars, List.mem_map] at h
  obtain ⟨y, hy, hx⟩ := h
  exact hx ▸ toLowerAscii_b32_ne_hyphen y (mem_b32Alphabet_of_mem_base32 hy)

theorem chunks_principalChars_no_hyphen (der : List Nat) :
    ∀ g ∈ chunksOf 5 (principalChars der), ∀ x ∈ g, x ≠ '-' :=
  fun _ hg _ hx =>
    principalChars_ne_hyphen (mem_of_mem_chunksOf (by norm_num) hg hx)

theorem chunks_principalChars_length (der : List Nat) :
    (chunksOf 5 (principalChars der)).length = 11 := by
  rw [chunksOf_length (by norm_num), principalChars_length]

theorem chunks_principalChars_ne_nil (der : List Nat) :
    chunksOf 5 (principalChars der) ≠ [] := by
  intro h
  have := chunks_principalChars_length der
  rw [h] at this
  simp at this

/-! ## Claim theorems on the fingerprint encoder -/

/-- C1: for every byte sequence `D`, `SelfAuthenticating D` equals the
spec pipeline: the 28-byte SHA-224 digest of `D`, the tag byte 2
appended (29-byte `T`), the IEEE CRC-32 of `T` prepended as 4
big-endian bytes (33 bytes), standard base-32 without padding,
lowercased, consecutive 5-character groups joined with hyphens. -/
theorem selfAuthenticating_eq_spec (D : List Nat) :
    SelfAuthenticating D = specSelfAuthenticating D := by
  rw [SelfAuthenticating_unfold, specSelfAuthenticating_unfold,
    SplitN_eq_chunksOf (by norm_num) _ (principalChars_ne_nil D)]

/-- C2: every generated principal is exactly 63 characters: 53 base-32
characters and 10 hyphens. -/
theorem selfAuthenticating_length (der : List Nat) :
    (SelfAuthenticating der).length = 63 ∧
      (SelfAuthenticating der).count '-' = 10 ∧
      ((SelfAuthenticating der).filter (fun c => c != '-')).length = 53 := by
  rw [SelfAuthenticating_unfold,
    SplitN_eq_chunksOf (by norm_num) _ (principalChars_ne_nil der)]
  refine ⟨?_, ?_, ?_⟩
  · rw [goJoin_length _ _ (chunks_principalChars_ne_nil der),
      flattenL_chunksOf (by norm_num), principalChars_length,
      chunks_principalChars_length]
  · rw [goJoin_count _ _ (chunks_principalChars_ne_nil der)
      (chunks_principalChars_no_hyphen der), chunks_principalChars_length]
  · rw [filter_goJoin_hyphen _ (chunks_principalChars_no_hyphen der),
      flattenL_chunksOf (by norm_num), principalChars_length]

/-- C7: removing the hyphens from a generated principal and re-chunking
the remaining characters in consecutive groups of 5 joined by hyphens
reproduces the principal exactly. -/
theorem selfAuthenticating_rechunk (der : List Nat) :
    goJoin ['-'] (chunksOf 5 ((SelfAuthenticating der).filter (fun c => c != '-'))) =
      SelfAuthenticating der := by
  rw [SelfAuthenticating_unfold,
    SplitN_eq_chunksOf (by norm_num) _ (principalChars_ne_nil der),
    filter_goJoin_hyphen _ (chunks_principalChars_no_hyphen der),
    flattenL_chunksOf (by norm_num)]

/-- C8: every character of a generated principal is the hyphen or a
lowercase standard base-32 character, one of a–z or 2–7. -/
theorem selfAuthenticating_alphabet (der : List Nat) (c : Char)
    (h : c ∈ SelfAuthenticating der) :
    c = '-' ∨ ('a' ≤ c ∧ c ≤ 'z') ∨ ('2' ≤ c ∧ c ≤ '7') := by
  rw [SelfAuthenticating_unfold,
    SplitN_eq_chunksOf (by norm_num) _ (principalChars_ne_nil der)] at h
  rcases mem_goJoin _ _ h with hsep | ⟨g, hg, hx⟩
  · left
    simpa using hsep
  · right
    exact principalChars_range (mem_of_mem_chunksOf (by norm_num) hg hx)

/-! ## Lemmas on the derivation driver -/

theorem genLoop_eq_exceptMapList {K E : Type} (child : K → Nat → Except E K)
    (ecPubKey : K → Except E (Nat × Nat)) (k0 : K) :
    ∀ (cnt i : Nat) (acc : List (List Char)),
      genLoop child ecPubKey k0 cnt i acc =
        match exceptMapList (leafPrincipal child ecPubKey k0) (List.range' i cnt) with
        | Except.error e => Except.error e
        | Except.ok l => Except.ok (acc ++ l) := by
  intro cnt
  induction cnt with
  | zero =>
    intro i acc
    simp [genLoop, List.range', exceptMapList]
  | succ cnt ih =>
    intro i acc
    have hrange : List.range' i (cnt + 1) = i :: List.range' (i + 1) cnt := rfl
    rw [hrange]
    cases hc : child k0 (u32 i) with
    | error e =>
      simp [genLoop, hc, exceptMapList, leafPrincipal, leafStep]
    | ok childKey =>
      cases he : ecPubKey childKey with
      | error e =>
        simp [genLoop, hc, he, exceptMapList, leafPrincipal, leafStep,
          ECPubKeyToPrincipal, EncodeECPubKey]
      | ok pubKey =>
        have hstep : genLoop child ecPubKey k0 (cnt + 1) i acc =
            genLoop child ecPubKey k0 cnt (i + 1)
              (acc ++ [SelfAuthenticating (asn1MarshalECPubKey pubKey.1 pubKey.2)]) := by
          simp [genLoop, hc, he, ECPubKeyToPrincipal, EncodeECPubKey]
        have hleaf : leafPrincipal child ecPubKey k0 i =
            Except.ok (SelfAuthenticating (asn1MarshalECPubKey pubKey.1 pubKey.2)) := by
          simp [leafPrincipal, leafStep, hc, he, ECPubKeyToPrincipal, EncodeECPubKey]
        rw [hstep, ih]
        simp only [exceptMapList, hleaf]
        cases exceptMapList (leafPrincipal child ecPubKey k0) (List.range' (i + 1) cnt) with
        | error e => rfl
        | ok l => simp

/-- C4: for every root key and count N ≥ 0, `generate` derives the
fixed intermediate child at index 0, then for each i in [0, N) derives
the leaf child at index i, extracts its public key point, runs it
through the encoding pipeline, and returns the N principals in index
order. -/
theorem generate_eq_generateSpec {K E : Type} (child : K → Nat → Except E K)
    (ecPubKey : K → Except E (Nat × Nat)) (root : K) (n : Int) (hn : 0 ≤ n) :
    generate child ecPubKey root n = generateSpec child ecPubKey root n := by
  rw [generate, generateSpec]
  cases hc : child root 0 with
  | error e => rfl
  | ok k0 =>
    show genLoop child ecPubKey k0 n.toNat 0 [] =
      exceptMapList (leafPrincipal child ecPubKey k0) (List.range n.toNat)
    rw [genLoop_eq_exceptMapList, List.range_eq_range']
    cases exceptMapList (leafPrincipal child ecPubKey k0) (List.range' 0 n.toNat) with
    | error e => rfl
    | ok l => simp

theorem generate_eq_generateSpec_witness :
    generate toyChild toyEC 7 3 = generateSpec toyChild toyEC 7 3 :=
  generate_eq_generateSpec toyChild toyEC 7 3 (by decide)

theorem genLoop_abort {K E : Type} (child : K → Nat → Except E K)
    (ecPubKey : K → Except E (Nat × Nat)) (k0 : K) (e : E) :
    ∀ (cnt start : Nat) (acc : List (List Char)) (i : Nat), i < cnt →
      (∀ j, j < i → ∃ p, leafStep child ecPubKey k0 (start + j) = Except.ok p) →
      leafStep child ecPubKey k0 (start + i) = Except.error e →
      genLoop child ecPubKey k0 cnt start acc = Except.error e := by
  intro cnt
  induction cnt with
  | zero => intro start acc i hi; omega
  | succ cnt ih =>
    intro start acc i hi hprev hfail
    cases i with
    | zero =>
      rw [Nat.add_zero] at hfail
      cases hc : child k0 (u32 start) with
      | error e2 =>
        simp only [leafStep, hc] at hfail
        injection hfail with h
        subst h
        simp [genLoop, hc]
      | ok childKey =>
        simp only [leafStep, hc] at hfail
        simp [genLoop, hc, hfail]
    | succ i2 =>
      obtain ⟨p, hp⟩ := hprev 0 (by omega)
      rw [Nat.add_zero] at hp
      cases hc : child k0 (u32 start) with
      | error e2 => simp only [leafStep, hc] at hp; cases hp
      | ok childKey =>
        simp only [leafStep, hc] at hp
        have hstep : genLoop child ecPubKey k0 (cnt + 1) start acc =
            genLoop child ecPubKey k0 cnt (start + 1)
              (acc ++ [SelfAuthenticating (asn1MarshalECPubKey p.1 p.2)]) := by
          simp [genLoop, hc, hp, ECPubKeyToPrincipal, EncodeECPubKey]
        rw [hstep]
        apply ih (start + 1) _ i2 (by omega)
        · intro j hj
          obtain ⟨q, hq⟩ := hprev (j + 1) (by omega)
          refine ⟨q, ?_⟩
          have harith : start + (j + 1) = start + 1 + j := by omega
          rw [harith] at hq
          exact hq
        · have harith : start + (i2 + 1) = start + 1 + i2 := by omega
          rw [harith] at hfail
          exact hfail

/-- C5: any failure of the external key-derivation collaborator —
deriving the intermediate child, or deriving a leaf child or extracting
its public key point at the first failing index — makes `generate`
return the error and no list of principals at all. -/
theorem generate_abort {K E : Type} (child : K → Nat → Except E K)
    (ecPubKey : K → Except E (Nat × Nat)) (root : K) (n : Int) (e : E) :
    (child root 0 = Except.error e → generate child ecPubKey root n = Except.error e) ∧
    (∀ (k0 : K) (i : Nat), child root 0 = Except.ok k0 → i < n.toNat →
      (∀ j, j < i → ∃ p, leafStep child ecPubKey k0 j = Except.ok p) →
      leafStep child ecPubKey k0 i = Except.error e →
      generate child ecPubKey root n = Except.error e) := by
  constructor
  · intro h
    rw [generate, h]
  · intro k0 i hk0 hi hprev hfail
    rw [generate, hk0]
    apply genLoop_abort child ecPubKey k0 e n.toNat 0 [] i hi
    · intro j hj
      rw [Nat.zero_add]
      exact hprev j hj
    · rw [Nat.zero_add]
      exact hfail

theorem generate_abort_witness :
    generate toyChildFail toyEC 5 2 = Except.error () :=
  (generate_abort toyChildFail toyEC 5 2 ()).1 rfl

/-- C6: with count 0, provided the intermediate child derivation at
index 0 succeeds (the key is valid), `generate` succeeds with the empty
result list. -/
theorem generate_zero {K E : Type} (child : K → Nat → Except E K)
    (ecPubKey : K → Except E (Nat × Nat)) (root k0 : K)
    (h : child root 0 = Except.ok k0) :
    generate child ecPubKey root 0 = Except.ok [] := by
  rw [generate, h]
  rfl

theorem generate_zero_witness : generate toyChild toyEC 5 0 = Except.ok [] :=
  generate_zero toyChild toyEC 5 11 rfl

/-- C9: the derivation-and-encoding pipeline is deterministic: two runs
of `generate` on the same key and count that both succeed produce the
same principal at every index. -/
theorem generate_deterministic {K E : Type} (child : K → Nat → Except E K)
    (ecPubKey : K → Except E (Nat × Nat)) (root : K) (n : Int)
    (l1 l2 : List (List Char))
    (h1 : generate child ecPubKey root n = Except.ok l1)
    (h2 : generate child ecPubKey root n = Except.ok l2) :
    ∀ i : Nat, l1[i]? = l2[i]? := by
  have h := h1.symm.trans h2
  injection h with h
  subst h
  intro i
  rfl

theorem generate_deterministic_witness :
    ([] : List (List Char))[0]? = ([] : List (List Char))[0]? :=
  generate_deterministic toyChild toyEC 4 0 [] [] rfl rfl 0

/-- C10: a negative count behaves exactly like count 0: provided the
intermediate child derivation succeeds, `generate` returns the empty
list and no error. -/
theorem generate_negative {K E : Type} (child : K → Nat → Except E K)
    (ecPubKey : K → Except E (Nat × Nat)) (root k0 : K) (n : Int) (hn : n < 0)
    (h : child root 0 = Except.ok k0) :
    generate child ecPubKey root n = Except.ok [] := by
  rw [generate, h]
  rw [Int.toNat_of_nonpos (Int.le_of_lt hn)]
  rfl

theorem generate_negative_witness : generate toyChild toyEC 6 (-1) = Except.ok [] :=
  generate_negative toyChild toyEC 6 13 (-1) (by decide) rfl

/-! ## The DER encoding claim -/

theorem beBytes_length (len n : Nat) : (beBytes len n).length = len := by
  simp [beBytes]

/-- C3: for every valid secp256k1 public key point (X, Y),
`EncodeECPubKey` returns the DER encoding of a SEQUENCE of an inner
SEQUENCE of the object identifiers 1.2.840.10045.2.1 and 1.3.132.0.10
followed by a BIT STRING with zero unused bits containing the
uncompressed point encoding 4‖X‖Y with 32-byte big-endian coordinates;
identical points always yield identical bytes. -/
theorem encodeECPubKey_der (X Y : Nat) (hX : X < secpP) (hY : Y < secpP)
    (hcurve : (Y * Y) % secpP = (X * X * X + 7) % secpP) :
    (EncodeECPubKey (X, Y) : Except Unit (List Nat)) =
        Except.ok (derECPubKeySpec X Y) ∧
      ∀ X2 Y2 : Nat, X2 = X → Y2 = Y →
        (EncodeECPubKey (X2, Y2) : Except Unit (List Nat)) =
          EncodeECPubKey (X, Y) := by
  constructor
  · -- both sides reduce to the same byte list: the object identifier
    -- contents are constant and every length in the structure is fixed
    -- (the coordinates are padded to exactly 32 bytes each), so the two
    -- encodings agree definitionally
    show Except.ok (asn1MarshalECPubKey X Y) = Except.ok (derECPubKeySpec X Y)
    rfl
  · intro X2 Y2 h2 h3
    subst h2
    subst h3
    rfl

theorem encodeECPubKey_der_witness :
    (EncodeECPubKey (secpGx, secpGy) : Except Unit (List Nat)) =
      Except.ok (derECPubKeySpec secpGx secpGy) :=
  (encodeECPubKey_der secpGx secpGy (by decide) (by decide) (by decide)).1

set_option maxRecDepth 8000 in
theorem selfAuthenticating_alphabet_witness :
    'o' = '-' ∨ ('a' ≤ 'o' ∧ 'o' ≤ 'z') ∨ ('2' ≤ 'o' ∧ 'o' ≤ '7') :=
  selfAuthenticating_alphabet [] 'o' (by decide)
